import Mathlib

/-!
Verification of the `one_billion_rows` aggregation program (src/main.rs).

The embedding is byte-level: a file, a line and a city name are `List Nat`
(each element a byte value 0..255), and the program's textual output is a
`List Nat` of bytes.  Rust's release-profile semantics are modelled:
two's-complement wrapping for `i32`/`u8` arithmetic, and retained bounds
checks, whose failure (a panic) is modelled by an explicit `PResult.panic`
result.  Machine integers are `Int`/`Nat` with explicit reductions modulo
`2^32` / `2^64` / `256` where the source can overflow.
-/

namespace OBR

/-- Bytes of a string literal (all inputs used here are ASCII). -/
def strBytes (s : String) : List Nat := s.data.map Char.toNat

/-- Two's-complement wrap of an integer into the `i32` range, the semantics of
Rust release-mode `i32` addition used by `TempValue`'s `Add` impl. -/
def i32wrap (x : Int) : Int := (x + 2 ^ 31) % 2 ^ 32 - 2 ^ 31

/-- `i32` wrapping addition: models `TempValue::add` (`self.0 + other.0` on `i32`). -/
def wadd (a b : Int) : Int := i32wrap (a + b)

/-- Result of a fallible Rust function that can also panic (index out of
bounds).  `err` is a recoverable `Err(..)`; `panic` aborts the thread. -/
inductive PResult (α : Type) where
  | ok (v : α)
  | err
  | panic
deriving DecidableEq

/-- `(c - b'0') as i32` with `u8` wrap-around (release semantics): the digit
decoder of `TempValue::try_from`.  No check that `c` is an ASCII digit. -/
def toDigit (c : Nat) : Int := ((c + 208) % 256 : Nat)

/-- `TempValue::try_from(&[u8])` from src/main.rs.  `value[0]` on an empty
slice is an out-of-bounds access, hence `panic`.  An optional leading `-`
(byte 45) is skipped; the rest must be `[d, u, '.', f]` or `[u, '.', f]`
(byte 46 is `'.'`); the bytes in the digit positions are NOT validated. -/
def TempValue.tryFrom (value : List Nat) : PResult Int :=
  match value with
  | [] => .panic
  | v0 :: _ =>
    let rest := if v0 = 45 then value.drop 1 else value
    let val? : Option Int :=
      match rest with
      | [d, u, p, f] =>
        if p = 46 then some (100 * toDigit d + 10 * toDigit u + toDigit f) else none
      | [u, p, f] =>
        if p = 46 then some (10 * toDigit u + toDigit f) else none
      | _ => none
    match val? with
    | none => .err
    | some v => .ok (if v0 = 45 then -v else v)

namespace fnv

/-- FNV-1a 64-bit prime (src/main.rs `fnv::FNV_PRIME`). -/
def FNV_PRIME : Nat := 1099511628211

/-- FNV-1a 64-bit offset basis (src/main.rs `fnv::FNV_OFFSET`). -/
def FNV_OFFSET : Nat := 14695981039346656037

/-- `fnv::fnv_hash_byte`: xor the byte into the accumulator, then multiply by
the prime with `u64` wrap-around. -/
def fnv_hash_byte (b : Nat) (h : Nat) : Nat := ((h ^^^ b) * FNV_PRIME) % 2 ^ 64

end fnv

/-- A parsed line: `DataLine` from src/main.rs (key, city-name slice,
temperature). -/
structure DataLine where
  key : Nat
  city : List Nat
  temperature : Int
deriving DecidableEq

/-- `DataLine::try_from(&[u8])` from src/main.rs.  For a line shorter than 6
bytes, `bytes[bytes_len - 6..]` is an out-of-bounds slice (the `usize`
subtraction wraps in release mode), which panics.  Otherwise the last six
bytes are inspected for `;` (byte 59) at window positions 2, 1, 0 in that
order; the third arm parses `&b[5..]` (only the final byte) exactly as the
source does.  On success the key is the FNV-1a hash of the city bytes
followed by the city length as one extra pseudo-byte (`idx as u8`). -/
def DataLine.tryFrom (bytes : List Nat) : PResult DataLine :=
  let n := bytes.length
  if n < 6 then .panic
  else
    match bytes.drop (n - 6) with
    | [w0, w1, w2, w3, w4, w5] =>
      let arm : Option (Nat × List Nat) :=
        if w2 = 59 then some (n - 4, [w3, w4, w5])
        else if w1 = 59 then some (n - 5, [w2, w3, w4, w5])
        else if w0 = 59 then some (n - 6, [w5])
        else none
      match arm with
      | none => .err
      | some (idx, tb) =>
        match TempValue.tryFrom tb with
        | .panic => .panic
        | .err => .err
        | .ok t =>
          let city := bytes.take idx
          let key :=
            fnv.fnv_hash_byte (idx % 256)
              (city.foldl (fun h b => fnv.fnv_hash_byte b h) fnv.FNV_OFFSET)
          .ok ⟨key, city, t⟩
    | _ => .panic  -- unreachable: `bytes.drop (n - 6)` has exactly 6 elements

/-- `CityData` from src/main.rs: running min / max / accumulated sum / count
for one city. -/
structure CityData where
  city : List Nat
  min : Int
  max : Int
  acc : Int
  count : Nat
deriving DecidableEq

/-- `Default::default()` for `CityData`: empty name, all-zero statistics. -/
def CityData.default : CityData := ⟨[], 0, 0, 0, 0⟩

/-- `CityData::new(city)`: the default record with the city name set.  Note
that, exactly as in the source, `min`, `max` and `acc` start at 0, NOT at the
first observed value. -/
def CityData.new (city : List Nat) : CityData := { CityData.default with city := city }

/-- `CityData::add`: fold one temperature into the running statistics. -/
def CityData.add (d : CityData) (v : Int) : CityData :=
  { d with
    min := Min.min d.min v
    max := Max.max d.max v
    acc := wadd d.acc v
    count := d.count + 1 }

/-- `CityData::merge`: combine the statistics of two records; the city name is
taken from `other`. -/
def CityData.merge (d o : CityData) : CityData :=
  { city := o.city
    min := Min.min d.min o.min
    max := Max.max d.max o.max
    acc := wadd d.acc o.acc
    count := d.count + o.count }

/-- `CitiesMap`: the `u64 -> CityData` hash map, embedded as an association
list.  All theorems about it are stated lookup-wise, so the (irrelevant)
bucket iteration order of the real `HashMap` does not enter. -/
abbrev CitiesMap := List (Nat × CityData)

/-- Look up a key (first matching entry). -/
def CitiesMap.lookup (m : CitiesMap) (k : Nat) : Option CityData :=
  match m with
  | [] => none
  | (k', d) :: rest => if k = k' then some d else CitiesMap.lookup rest k

/-- The `entry(key).or_insert_with(..) / or_default()` idiom: replace the
entry for `k` by `f (some current)`, or append `f none` if absent. -/
def CitiesMap.upsert (m : CitiesMap) (k : Nat) (f : Option CityData → CityData) : CitiesMap :=
  match m with
  | [] => [(k, f none)]
  | (k', d) :: rest =>
    if k = k' then (k', f (some d)) :: rest else (k', d) :: CitiesMap.upsert rest k f

/-- `CitiesMap::add`: `entry(line.key).or_insert_with(|| CityData::new(line.city))`
followed by `CityData::add(line.temperature)`. -/
def CitiesMap.add (m : CitiesMap) (l : DataLine) : CitiesMap :=
  m.upsert l.key (fun o => (o.getD (CityData.new l.city)).add l.temperature)

/-- `CitiesMap::merge`: for every entry of `other`,
`self.entry(key).or_default().merge(data)`. -/
def CitiesMap.merge (m : CitiesMap) (other : CitiesMap) : CitiesMap :=
  other.foldl (fun acc kd => acc.upsert kd.1 (fun o => (o.getD CityData.default).merge kd.2)) m

/-- `slice::split(|&b| b == b'\n')` (byte 10), as used by `process_chunk`. -/
def splitNl : List Nat → List (List Nat)
  | [] => [[]]
  | b :: rest =>
    if b = 10 then [] :: splitNl rest
    else
      match splitNl rest with
      | [] => [[b]]
      | l :: ls => (b :: l) :: ls

/-- The non-empty lines of a buffer: `split` followed by
`filter(|line| !line.is_empty())`. -/
def nonEmptyLines (buf : List Nat) : List (List Nat) :=
  (splitNl buf).filter (fun l => !l.isEmpty)

/-- `process_chunk` from src/main.rs: split the buffer into lines, skip empty
lines, parse each line (`DataLine::try_from(line).ok()` skips `Err`s), and
fold the records into a fresh map.  A panic inside `try_from` aborts the
whole computation, modelled by `none`. -/
def processChunk (buffer : List Nat) : Option CitiesMap :=
  (nonEmptyLines buffer).foldlM
    (fun m line =>
      match DataLine.tryFrom line with
      | .panic => none
      | .err => some m
      | .ok dl => some (m.add dl))
    ([] : CitiesMap)

/-- The successfully parsed records of a buffer (errors skipped). -/
def chunkRecords (buffer : List Nat) : List DataLine :=
  (nonEmptyLines buffer).filterMap (fun line =>
    match DataLine.tryFrom line with
    | .ok dl => some dl
    | _ => none)

/-- The panic-free core of `process_chunk`: fold all parsed records into a
fresh map.  `processChunk` agrees with `some` of this whenever no line
panics (proved below). -/
def processChunkTotal (buffer : List Nat) : CitiesMap :=
  (chunkRecords buffer).foldl CitiesMap.add []

/-! ### Per-key view of the aggregation

The theorems about chunked processing are stated lookup-wise; the following
definitions describe what one fingerprint's aggregate looks like after a
record stream has been folded in, and how `CitiesMap::merge` acts on one
fingerprint. -/

/-- How one fingerprint's entry evolves when a record is folded into a map:
the per-key shadow of `CitiesMap::add`. -/
def stepK (k : Nat) (o : Option CityData) (r : DataLine) : Option CityData :=
  if r.key = k then some ((o.getD (CityData.new r.city)).add r.temperature) else o

/-- The aggregate for fingerprint `k` after folding a record stream into a
fresh map. -/
def aggOf (k : Nat) (rs : List DataLine) : Option CityData :=
  rs.foldl (stepK k) none

/-- How one fingerprint's entry evolves under `CitiesMap::merge`: the entry
of `other` (if any) is merged into `self`'s entry or a default one. -/
def mergeOptD (o1 o2 : Option CityData) : Option CityData :=
  match o2 with
  | none => o1
  | some d => some ((o1.getD CityData.default).merge d)

/-- The records of a stream carrying fingerprint `k`. -/
def kfilter (k : Nat) (rs : List DataLine) : List DataLine :=
  rs.filter (fun r => r.key == k)

/-- The temperatures observed for fingerprint `k` in a record stream. -/
def tempsOf (k : Nat) (rs : List DataLine) : List Int :=
  (kfilter k rs).map (fun r => r.temperature)

/-- Folding temperatures into an existing aggregate. -/
def extendD (d : CityData) (ts : List Int) : CityData :=
  ⟨d.city, ts.foldl Min.min d.min, ts.foldl Max.max d.max,
    ts.foldl wadd d.acc, d.count + ts.length⟩

/-- The fingerprints present in a map. -/
def keysOf (m : CitiesMap) : List Nat := m.map Prod.fst

/-- City-name consistency for fingerprint `k` within a record stream: any two
records with fingerprint `k` name the same city. -/
def CityConsistent (k : Nat) (rs : List DataLine) : Prop :=
  ∀ r1 ∈ rs, ∀ r2 ∈ rs, r1.key = k → r2.key = k → r1.city = r2.city

/-! ### Output formatting

`Display for TempValue` converts the scaled integer `v` to `f32` as
`v as f32 / 10.0` and prints it with `{:.1}`; `Display for CityData`
additionally prints `avg()`, which is `acc as f32 / 10.0 / count as f32`
formatted with `{:.1}`.  The emitted bytes are modelled by an exact integer
model of this IEEE-754 binary32 pipeline (`f32norm` and friends below):
every cast and division is rounded to nearest with ties to even on a 24-bit
significand, and the final `{:.1}` rounds the exact decimal expansion of the
resulting `f32` to one fractional digit, ties to even, keeping the `f32`
value's sign (so a negative mean that rounds to magnitude zero prints
`-0.0`, as Rust does).

Additionally, `displayTenths` below is the plain decimal rendering of an
integer number of tenths; it equals the `{:.1}` output of `v as f32 / 10.0`
for `v` in the value parser's range (`|v| ≤ 28305 < 2^24`: conversion exact,
relative error of the division `< 2^-24`, far below the `0.05` granularity,
and no decimal tie is reachable since `k + 0.05` is not dyadic), and is used
for the round-trip law C6 on exactly that range. -/

/-- Decimal digit bytes of a natural number (fuel-based so it reduces in the
kernel; the fuel `n + 1` always suffices since `n / 10 < n`). -/
def natBytesAux : Nat → Nat → List Nat
  | 0, _ => []
  | fuel + 1, n => if n < 10 then [48 + n] else natBytesAux fuel (n / 10) ++ [48 + n % 10]

/-- Decimal digit bytes of a natural number. -/
def natBytes (n : Nat) : List Nat := natBytesAux (n + 1) n

/-- The bytes printed by `{:.1}` for the tenths-scaled value `v`:
optional `-` (45), integer digits, `.` (46), one fractional digit. -/
def displayTenths (v : Int) : List Nat :=
  (if v < 0 then [45] else []) ++ natBytes (v.natAbs / 10) ++ [46, 48 + v.natAbs % 10]

/-- Round-half-to-even division of naturals: the IEEE rounding of a
positive quotient onto an integer grid. -/
def rheDiv (a b : Nat) : Nat :=
  let q := a / b
  let r := a % b
  if 2 * r < b then q else if b < 2 * r then q + 1 else if q % 2 = 0 then q else q + 1

/-- Fuel-based floor of log2 (kernel-computable; fuel `n` always suffices). -/
def log2fuel : Nat → Nat → Nat
  | 0, _ => 0
  | f + 1, n => if n < 2 then 0 else log2fuel f (n / 2) + 1

/-- `⌊log2 n⌋` for `n ≥ 1`. -/
def nlog2 (n : Nat) : Nat := log2fuel n n

/-- `⌊n / (den · 2^e)⌋`. -/
def floorAt (n den : Nat) (e : Int) : Nat :=
  if 0 ≤ e then n / (den * 2 ^ e.toNat) else n * 2 ^ (-e).toNat / den

/-- Round-half-even of `n / (den · 2^e)` to an integer. -/
def roundAt (n den : Nat) (e : Int) : Nat :=
  if 0 ≤ e then rheDiv n (den * 2 ^ e.toNat) else rheDiv (n * 2 ^ (-e).toNat) den

/-- The binary32 value nearest to the positive rational `n / den` (ties to
even): a pair `(m, e)` whose value is `m · 2^e` with the 24-bit significand
`m` chosen so that `n / (den · 2^e)` lies in `[2^23, 2^24]`.  Exact for the
normal range of `f32`, which covers every machine-representable field of a
`CityData` (see `MachineRange`). -/
def f32norm (n den : Nat) : Nat × Int :=
  let e0 : Int := (nlog2 n : Int) - nlog2 den - 24
  let e := if 2 ^ 24 ≤ floorAt n den e0 then e0 + 1 else e0
  (roundAt n den e, e)

/-- The `{:.1}` digit value of the dyadic `m · 2^e`: its magnitude in
tenths, rounded to nearest with ties to even (Rust's float formatter rounds
the exact decimal expansion of the binary value this way). -/
def dyadicTenths (m : Nat) (e : Int) : Nat :=
  if 0 ≤ e then m * 10 * 2 ^ e.toNat else rheDiv (m * 10) (2 ^ (-e).toNat)

/-- Magnitude in tenths printed by `{:.1}` for `v as f32 / 10.0`
(`Display for TempValue`): cast `|v|` to `f32`, divide by `10.0` in `f32`,
round the result to one decimal digit. -/
def tempMagTenths (v : Int) : Nat :=
  if v = 0 then 0
  else
    let a := f32norm v.natAbs 1
    let b := f32norm a.1 10
    dyadicTenths b.1 (b.2 + a.2)

/-- Magnitude in tenths printed by `{:.1}` for
`acc as f32 / 10.0 / count as f32` (`CityData::avg`): three casts and two
divisions, each correctly rounded in `f32`, then the decimal rounding.
Dividing dyadics reduces to `f32norm` on the significands because the `f32`
grid is shift-invariant across the normal range. -/
def avgMagTenths (acc : Int) (count : Nat) : Nat :=
  if acc = 0 then 0
  else
    let a := f32norm acc.natAbs 1
    let b := f32norm a.1 10
    let c := f32norm count 1
    let q := f32norm b.1 c.1
    dyadicTenths q.1 (q.2 + (b.2 + a.2) - c.2)

/-- `sign? digits '.' digit`: the `{:.1}` byte output.  The sign is the
`f32` value's sign, so a negative value whose magnitude rounds to zero is
printed `-0.0`, exactly as Rust prints it. -/
def f32TenthsBytes (neg : Bool) (mag : Nat) : List Nat :=
  (if neg then [45] else []) ++ natBytes (mag / 10) ++ [46, 48 + mag % 10]

/-- The bytes printed for a `TempValue` field (`min` or `max`). -/
def tempDisplay (v : Int) : List Nat :=
  f32TenthsBytes (decide (v < 0)) (tempMagTenths v)

/-- The bytes printed for the mean field (`CityData::avg` under `{:.1}`);
its sign is `acc`'s sign since `count as f32` is non-negative. -/
def avgDisplay (d : CityData) : List Nat :=
  f32TenthsBytes (decide (d.acc < 0)) (avgMagTenths d.acc d.count)

/-- The bytes printed for one city by `Display for CityData`:
`city=min/avg/max` (61 is `=`, 47 is `/`). -/
def CityData.entryBytes (d : CityData) : List Nat :=
  d.city ++ [61] ++ tempDisplay d.min ++ [47] ++ avgDisplay d ++ [47]
    ++ tempDisplay d.max

/-- `print_results` from src/main.rs: `{` (123), then for every city its entry
followed by `", "` (44, 32), then the line `"\u{8}\u{8}}"`: two BACKSPACE
characters (8) and `}` (125).  The final `println!` newline is the line
terminator and is not part of the emitted line. -/
def print_results (rs : List CityData) : List Nat :=
  [123] ++ (rs.map (fun d => d.entryBytes ++ [44, 32])).flatten ++ [8, 8, 125]

/-- Byte-lexicographic comparison of names, the order of Rust's `&str` sort
key in `results.sort_by_key(|d| d.city)`. -/
def lexLe : List Nat → List Nat → Bool
  | [], _ => true
  | _ :: _, [] => false
  | a :: as_, b :: bs => if a < b then true else if b < a then false else lexLe as_ bs

/-- The sort-key order of `results.sort_by_key(|d| d.city)`. -/
def cityLe (a b : CityData) : Prop := lexLe a.city b.city = true

instance : DecidableRel cityLe := fun a b => instDecidableEqBool (lexLe a.city b.city) true

/-- `main`'s final steps: sort the records by city name and print them.
Rust's `sort_by_key` is a stable comparison sort; it is modelled by the
(stable) insertion sort, which any stable sort agrees with. -/
def sortCities (rs : List CityData) : List CityData :=
  rs.insertionSort cityLe

/-- The emitted result line for an (arbitrarily ordered) collection of
records: sort by name, then `print_results`. -/
def emitted (rs : List CityData) : List Nat := print_results (sortCities rs)

/-! ### The shared-reader chunking loop

The worker loop in `main` repeatedly: locks `remaining` and the reader, reads
up to `reader_capacity` bytes, splits the read buffer at the LAST newline
(`rposition`, falling back to the buffer length when there is none), prepends
the previous `remaining` to the part before the split, stores the part from
the split onward (which begins with the newline) back into `remaining`, and
hands the assembled buffer to `process_chunk`.  When a read returns 0 bytes
the loop breaks — whatever is still in `remaining` is dropped.  Both locks
are held for the whole iteration, so the chunk sequence is the same for any
number of workers; the model below is that sequential semantics, parametrised
by the read size. -/

/-- `buffer.iter().rposition(|&b| b == b'\n').unwrap_or(buffer.len())`. -/
def findLastNlPos (buf : List Nat) : Nat :=
  match buf.reverse.findIdx? (fun b => b = 10) with
  | some j => buf.length - 1 - j
  | none => buf.length

/-- One worker-loop iteration per step; returns the list of buffers handed to
`process_chunk`.  `fuel` bounds the iteration count (`file.length + 1` always
suffices since every non-final read consumes at least one byte). -/
def readLoopAux (readSize : Nat) : Nat → List Nat → List Nat → List (List Nat)
  | 0, _, _ => []
  | fuel + 1, fileRest, remaining =>
    let readN := Nat.min readSize fileRest.length
    if readN = 0 then []  -- EOF: the loop breaks and `remaining` is dropped
    else
      let buf := fileRest.take readN
      let p := findLastNlPos buf
      (remaining ++ buf.take p) :: readLoopAux readSize fuel (fileRest.drop readN) (buf.drop p)

/-- The sequence of buffers handed to `process_chunk` when reading `file`
with reads of (up to) `readSize` bytes. -/
def readChunks (file : List Nat) (readSize : Nat) : List (List Nat) :=
  readLoopAux readSize (file.length + 1) file []

/-- Forget whether a failure was recoverable. -/
def PResult.toOption {α : Type} : PResult α → Option α
  | .ok v => some v
  | _ => none

/-! ### Specification-side definitions

These definitions follow the words of the spec / claims, to be compared with
the code-derived definitions above. -/

/-- ASCII digit test (spec side). -/
def isDigitB (c : Nat) : Bool := 48 ≤ c && c ≤ 57

/-- The value grammar claimed by the spec: optional leading `-` (45), one or
two integer digits, `.` (46), exactly one fractional digit. -/
def grammarB (bs : List Nat) : Bool :=
  match bs with
  | [a, p, c] => isDigitB a && (p == 46) && isDigitB c
  | [x, a, p, c] =>
    if x == 45 then isDigitB a && (p == 46) && isDigitB c
    else isDigitB x && isDigitB a && (p == 46) && isDigitB c
  | [x, a, b, p, c] => (x == 45) && isDigitB a && isDigitB b && (p == 46) && isDigitB c
  | _ => false

/-- A grammar string in canonical form: additionally, a two-digit integer
part does not start with `0`, and the string is not a negative spelling of
zero (`-0.0`). -/
def canonicalValueB (bs : List Nat) : Bool :=
  match bs with
  | [a, p, c] => isDigitB a && (p == 46) && isDigitB c
  | [x, a, p, c] =>
    if x == 45 then isDigitB a && (p == 46) && isDigitB c && !(a == 48 && c == 48)
    else isDigitB x && !(x == 48) && isDigitB a && (p == 46) && isDigitB c
  | [x, a, b, p, c] =>
    (x == 45) && isDigitB a && !(a == 48) && isDigitB b && (p == 46) && isDigitB c
  | _ => false

/-- The shapes on which the value parser actually succeeds: the core (what
remains after removing one leading `-`, byte 45) is 3 bytes with `.` (46) in
the middle, or 4 bytes with `.` in the third position; the bytes in the
digit positions are arbitrary. -/
def tailShape (core : List Nat) : Prop :=
  (core.length = 3 ∧ core.get? 1 = some 46) ∨ (core.length = 4 ∧ core.get? 2 = some 46)

/-- The full accepted-input shape of `TempValue::try_from` (see `tailShape`). -/
def AcceptShape (bs : List Nat) : Prop :=
  match bs with
  | [] => False
  | v0 :: rest => if v0 = 45 then tailShape rest else tailShape bs

/-- A chunk list is line-aligned when every chunk except the last ends at a
line terminator (or is empty). -/
def Aligned (parts : List (List Nat)) : Prop :=
  ∀ p ∈ parts.dropLast, p = [] ∨ p.getLast? = some 10

/-- Every non-empty line of the buffer is at least 6 bytes long, so that no
line makes `DataLine::try_from` panic. -/
def NoShortLines (buf : List Nat) : Prop :=
  ∀ l ∈ nonEmptyLines buf, 6 ≤ l.length

/-- No FNV fingerprint collision between distinct city names occurs among the
records of the buffer (the accepted design risk of §9 of the spec). -/
def KeyDeterminesCity (buf : List Nat) : Prop :=
  ∀ d1 ∈ chunkRecords buf, ∀ d2 ∈ chunkRecords buf, d1.key = d2.key → d1.city = d2.city

/-- Two maps hold the same aggregate for every fingerprint. -/
def MapEquiv (m1 m2 : CitiesMap) : Prop := ∀ k, m1.lookup k = m2.lookup k

/-- `x1 ++ sep ++ x2 ++ sep ++ ... ++ xn` (spec side: entries separated by
`", "` with no trailing separator). -/
def sepJoin (sep : List Nat) : List (List Nat) → List Nat
  | [] => []
  | [x] => x
  | x :: xs => x ++ sep ++ sepJoin sep xs

/-- `bs` ends in `.` followed by exactly one digit, with no other `.`
after the integer part: "exactly one fractional digit". -/
def OneFracDigit (bs : List Nat) : Prop :=
  ∃ p q, bs = p ++ [46, q] ∧ 46 ∉ p ∧ 48 ≤ q ∧ q ≤ 57

/-- The fields of an aggregate are machine-representable program values:
`min`, `max` and `acc` are `i32` values and the count is a non-zero `usize`
(a zero count would make `avg` the `0.0 / 0.0` NaN, which no program-created
aggregate exhibits).  Within this range the whole `f32` formatting pipeline
stays in binary32's normal range — no overflow, underflow or NaN — so the
integer model of the formatter is exact. -/
def MachineRange (d : CityData) : Prop :=
  i32wrap d.min = d.min ∧ i32wrap d.max = d.max ∧ i32wrap d.acc = d.acc ∧
    1 ≤ d.count ∧ d.count < 2 ^ 64

/-- The FNV-1a scheme exactly as the claim words it: start from the offset
basis 14695981039346656037 and, for each byte, xor it into the accumulator
and multiply by the prime 1099511628211 modulo `2^64`. -/
def fnvSpec (bytes : List Nat) : Nat :=
  bytes.foldl (fun h b => ((h ^^^ b) * 1099511628211) % 2 ^ 64) 14695981039346656037

/-! ## Helper lemmas -/

theorem i32wrap_add_left (a b : Int) : i32wrap (i32wrap a + b) = i32wrap (a + b) := by
  unfold i32wrap
  omega

theorem i32wrap_zero : i32wrap 0 = 0 := by decide

/-- The `acc` field evolves by `wadd` alone under `CityData.add`. -/
theorem foldl_add_acc (vs : List Int) :
    ∀ d : CityData, (vs.foldl CityData.add d).acc = vs.foldl wadd d.acc := by
  induction vs with
  | nil => intro d; rfl
  | cons v vs ih => intro d; exact ih (d.add v)

/-- Folding `wadd` from a wrapped start yields the wrapped exact sum. -/
theorem foldl_wadd_eq (vs : List Int) :
    ∀ a : Int, vs.foldl wadd (i32wrap a) = i32wrap (a + vs.sum) := by
  induction vs with
  | nil => intro a; simp
  | cons v vs ih =>
    intro a
    have h1 : wadd (i32wrap a) v = i32wrap (a + v) := i32wrap_add_left a v
    calc (v :: vs).foldl wadd (i32wrap a) = vs.foldl wadd (i32wrap (a + v)) := by
          simp [List.foldl, h1]
      _ = i32wrap (a + v + vs.sum) := ih (a + v)
      _ = i32wrap (a + (v :: vs).sum) := by rw [List.sum_cons]; ring_nf

/-- The accumulated sum after observing `vs` on a fresh group is the
`i32`-wrapped exact sum. -/
theorem acc_eq_wrapped_sum (vs : List Int) (city : List Nat) :
    (vs.foldl CityData.add (CityData.new city)).acc = i32wrap vs.sum := by
  rw [foldl_add_acc]
  have h0 : (CityData.new city).acc = i32wrap 0 := by rw [i32wrap_zero]; rfl
  rw [h0, foldl_wadd_eq, zero_add]

/-- The key built by a successful parse is the FNV-1a spec formula over the
city bytes followed by the length pseudo-byte. -/
theorem key_spec (bytes : List Nat) (idx : Nat) (hle : idx ≤ bytes.length) :
    fnv.fnv_hash_byte (idx % 256)
        ((bytes.take idx).foldl (fun h b => fnv.fnv_hash_byte b h) fnv.FNV_OFFSET)
      = fnvSpec (bytes.take idx ++ [(bytes.take idx).length % 256]) := by
  have hlen : (bytes.take idx).length = idx := by
    rw [List.length_take]
    exact Nat.min_eq_left hle
  rw [hlen]
  simp only [fnvSpec, List.foldl_append, List.foldl_cons, List.foldl_nil]
  rfl

/-- For an ASCII digit byte the wrapping decoder gives the digit value. -/
theorem toDigit_digit (c : Nat) (h1 : 48 ≤ c) (h2 : c ≤ 57) : toDigit c = (c : Int) - 48 := by
  simp only [toDigit]
  omega

theorem lexLe_total : ∀ a b, lexLe a b = true ∨ lexLe b a = true := by
  intro a
  induction a with
  | nil => intro b; left; rfl
  | cons x xs ih =>
    intro b
    cases b with
    | nil => right; rfl
    | cons y ys =>
      simp only [lexLe]
      rcases Nat.lt_trichotomy x y with h | h | h
      · left; simp [h]
      · subst h
        simp only [Nat.lt_irrefl, if_false]
        exact ih ys
      · right; simp [h]

theorem lexLe_trans : ∀ a b c, lexLe a b = true → lexLe b c = true → lexLe a c = true := by
  intro a
  induction a with
  | nil => intro b c _ _; rfl
  | cons x xs ih =>
    intro b c hab hbc
    cases b with
    | nil => exact absurd hab (by simp [lexLe])
    | cons y ys =>
      cases c with
      | nil => exact absurd hbc (by simp [lexLe])
      | cons z zs =>
        simp only [lexLe] at hab hbc ⊢
        split_ifs at hab hbc ⊢ with h1 h2 h3 h4 h5 h6 <;>
          first
            | rfl
            | omega
            | (exact hab)
            | (exact hbc)
            | (exact ih ys zs hab hbc)

instance : IsTotal CityData cityLe := ⟨fun a b => lexLe_total a.city b.city⟩

instance : IsTrans CityData cityLe :=
  ⟨fun a b c hab hbc => lexLe_trans a.city b.city c.city hab hbc⟩

/-- Flattening suffixed entries is the separator-join plus one trailing
separator (when non-empty). -/
theorem flatten_map_append (sep : List Nat) :
    ∀ xs : List (List Nat),
      (xs.map (fun x => x ++ sep)).flatten
        = sepJoin sep xs ++ (if xs.isEmpty then [] else sep) := by
  intro xs
  induction xs with
  | nil => rfl
  | cons x t ih =>
    cases t with
    | nil => simp [sepJoin]
    | cons y t' =>
      simp only [List.map_cons, List.flatten_cons] at ih ⊢
      rw [ih]
      simp [sepJoin, List.append_assoc]

/-- Every byte printed for a natural number is an ASCII digit. -/
theorem natBytesAux_mem : ∀ fuel n b, b ∈ natBytesAux fuel n → 48 ≤ b ∧ b ≤ 57 := by
  intro fuel
  induction fuel with
  | zero => intro n b hb; simp [natBytesAux] at hb
  | succ f ih =>
    intro n b hb
    simp only [natBytesAux] at hb
    by_cases h : n < 10
    · rw [if_pos h] at hb
      simp at hb
      omega
    · rw [if_neg h] at hb
      rcases List.mem_append.mp hb with hb | hb
      · exact ih (n / 10) b hb
      · simp at hb
        omega

/-- Every `{:.1}`-formatted value has exactly one fractional digit. -/
theorem oneFrac_f32TenthsBytes (neg : Bool) (mag : Nat) :
    OneFracDigit (f32TenthsBytes neg mag) := by
  refine ⟨(if neg then [45] else []) ++ natBytes (mag / 10), 48 + mag % 10,
    ?_, ?_, by omega, by omega⟩
  · simp [f32TenthsBytes, List.append_assoc]
  · intro hmem
    rcases List.mem_append.mp hmem with hmem | hmem
    · rcases neg <;> simp at hmem
    · have := natBytesAux_mem _ _ _ hmem
      omega

/-- One-digit decimal rendering. -/
theorem natBytes_one (n : Nat) (h : n < 10) : natBytes n = [48 + n] := by
  simp [natBytes, natBytesAux, h]

/-- Two-digit decimal rendering. -/
theorem natBytes_two (n : Nat) (h1 : 10 ≤ n) (h2 : n < 100) :
    natBytes n = [48 + n / 10, 48 + n % 10] := by
  obtain ⟨m, rfl⟩ : ∃ m, n = m + 1 := ⟨n - 1, by omega⟩
  have hn : ¬m + 1 < 10 := by omega
  have hd : (m + 1) / 10 < 10 := by omega
  simp only [natBytes, natBytesAux]
  rw [if_neg hn, if_pos hd]
  rfl

/-! ### Lookup lemmas for the association-list map -/

theorem lookup_upsert (m : CitiesMap) (k : Nat) (f : Option CityData → CityData) (q : Nat) :
    (m.upsert k f).lookup q = if q = k then some (f (m.lookup k)) else m.lookup q := by
  induction m with
  | nil => simp only [CitiesMap.upsert, CitiesMap.lookup]
  | cons kd rest ih =>
    obtain ⟨k0, d⟩ := kd
    by_cases hk : k = k0 <;> by_cases hq : q = k0 <;> by_cases hq2 : q = k <;>
      simp_all [CitiesMap.upsert, CitiesMap.lookup]

theorem lookup_foldl_add (rs : List DataLine) :
    ∀ (m : CitiesMap) (k : Nat),
      (rs.foldl CitiesMap.add m).lookup k = rs.foldl (stepK k) (m.lookup k) := by
  induction rs with
  | nil => intro m k; rfl
  | cons r rs ih =>
    intro m k
    simp only [List.foldl_cons]
    rw [ih]
    have hstep : (m.add r).lookup k = stepK k (m.lookup k) r := by
      simp only [CitiesMap.add, stepK]
      rw [lookup_upsert]
      by_cases hk : r.key = k
      · subst hk; simp
      · rw [if_neg (fun h => hk h.symm), if_neg hk]
    rw [hstep]

theorem lookup_processChunkTotal (buf : List Nat) (k : Nat) :
    (processChunkTotal buf).lookup k = aggOf k (chunkRecords buf) := by
  unfold processChunkTotal aggOf
  rw [lookup_foldl_add]
  rfl

theorem keysOf_upsert (m : CitiesMap) (k : Nat) (f : Option CityData → CityData) :
    keysOf (m.upsert k f) = if k ∈ keysOf m then keysOf m else keysOf m ++ [k] := by
  induction m with
  | nil => simp [CitiesMap.upsert, keysOf]
  | cons kd rest ih =>
    obtain ⟨k0, d⟩ := kd
    by_cases hk : k = k0
    · subst hk
      simp [CitiesMap.upsert, keysOf]
    · by_cases hm : k ∈ keysOf rest <;>
        simp_all [CitiesMap.upsert, keysOf, hk, hm]

theorem keysNodup_upsert (m : CitiesMap) (k : Nat) (f : Option CityData → CityData)
    (h : (keysOf m).Nodup) : (keysOf (m.upsert k f)).Nodup := by
  rw [keysOf_upsert]
  split_ifs with hm
  · exact h
  · simp [List.nodup_append, h, hm]

theorem keysNodup_foldl_add (rs : List DataLine) :
    ∀ m : CitiesMap, (keysOf m).Nodup → (keysOf (rs.foldl CitiesMap.add m)).Nodup := by
  induction rs with
  | nil => intro m h; exact h
  | cons r rs ih =>
    intro m h
    exact ih (m.add r) (keysNodup_upsert m r.key _ h)

theorem keysNodup_processChunkTotal (buf : List Nat) :
    (keysOf (processChunkTotal buf)).Nodup :=
  keysNodup_foldl_add _ [] (by simp [keysOf])

theorem merge_lookup_skip :
    ∀ (l : List (Nat × CityData)) (m : CitiesMap) (k : Nat), k ∉ l.map Prod.fst →
      ((l.foldl (fun acc kd =>
          acc.upsert kd.1 (fun o => (o.getD CityData.default).merge kd.2)) m).lookup k)
        = m.lookup k := by
  intro l
  induction l with
  | nil => intro m k _; rfl
  | cons kd rest ih =>
    intro m k hk
    simp only [List.map_cons, List.mem_cons] at hk
    push_neg at hk
    simp only [List.foldl_cons]
    rw [ih _ k hk.2, lookup_upsert, if_neg hk.1]

theorem lookup_merge :
    ∀ (m2 m1 : CitiesMap) (k : Nat), (keysOf m2).Nodup →
      (m1.merge m2).lookup k = mergeOptD (m1.lookup k) (m2.lookup k) := by
  intro m2
  induction m2 with
  | nil => intro m1 k _; rfl
  | cons kd rest ih =>
    intro m1 k h2
    obtain ⟨k0, d⟩ := kd
    have h2' : (keysOf rest).Nodup := (List.nodup_cons.mp h2).2
    have h0 : k0 ∉ keysOf rest := (List.nodup_cons.mp h2).1
    show ((rest.foldl _ (m1.upsert k0 _)).lookup k) = _
    by_cases hk : k = k0
    · subst hk
      rw [merge_lookup_skip rest _ k h0, lookup_upsert, if_pos rfl]
      simp [mergeOptD, CitiesMap.lookup]
    · have hh := ih (m1.upsert k0 fun o => (o.getD CityData.default).merge (k0, d).2) k h2'
      rw [lookup_upsert, if_neg hk] at hh
      have hr : CitiesMap.lookup ((k0, d) :: rest) k = CitiesMap.lookup rest k := by
        simp [CitiesMap.lookup, hk]
      rw [hr]
      exact hh

theorem lookup_foldl_merge :
    ∀ (ms : List CitiesMap) (m0 : CitiesMap) (k : Nat),
      (∀ mm ∈ ms, (keysOf mm).Nodup) →
      (ms.foldl CitiesMap.merge m0).lookup k
        = ms.foldl (fun o mm => mergeOptD o (mm.lookup k)) (m0.lookup k) := by
  intro ms
  induction ms with
  | nil => intro m0 k _; rfl
  | cons mm ms ih =>
    intro m0 k h
    simp only [List.foldl_cons]
    rw [ih _ k (fun x hx => h x (List.mem_cons_of_mem _ hx))]
    rw [lookup_merge mm m0 k (h mm (List.mem_cons_self _ _))]

/-! ### Per-key algebra of `add` and `merge` -/

theorem i32wrap_add_right (a b : Int) : i32wrap (a + i32wrap b) = i32wrap (a + b) := by
  unfold i32wrap
  omega

theorem i32wrap_i32wrap (a : Int) : i32wrap (i32wrap a) = i32wrap a := by
  unfold i32wrap
  omega

theorem wadd_assoc (a b c : Int) : wadd (wadd a b) c = wadd a (wadd b c) := by
  unfold wadd
  rw [i32wrap_add_left, i32wrap_add_right, add_assoc]

theorem wadd_wrapped (a b : Int) : i32wrap (wadd a b) = wadd a b :=
  i32wrap_i32wrap _

theorem foldl_min_shift :
    ∀ (ts : List Int) (a b : Int),
      ts.foldl Min.min (Min.min a b) = Min.min a (ts.foldl Min.min b) := by
  intro ts
  induction ts with
  | nil => intro a b; rfl
  | cons t ts ih =>
    intro a b
    simp only [List.foldl_cons]
    rw [min_assoc]
    exact ih a (Min.min b t)

theorem foldl_max_shift :
    ∀ (ts : List Int) (a b : Int),
      ts.foldl Max.max (Max.max a b) = Max.max a (ts.foldl Max.max b) := by
  intro ts
  induction ts with
  | nil => intro a b; rfl
  | cons t ts ih =>
    intro a b
    simp only [List.foldl_cons]
    rw [max_assoc]
    exact ih a (Max.max b t)

theorem foldl_wadd_shift :
    ∀ (ts : List Int) (a b : Int),
      ts.foldl wadd (wadd a b) = wadd a (ts.foldl wadd b) := by
  intro ts
  induction ts with
  | nil => intro a b; rfl
  | cons t ts ih =>
    intro a b
    simp only [List.foldl_cons]
    rw [wadd_assoc]
    exact ih a (wadd b t)

theorem foldl_min_le : ∀ (ts : List Int) (a : Int), ts.foldl Min.min a ≤ a := by
  intro ts
  induction ts with
  | nil => intro a; exact le_refl a
  | cons t ts ih =>
    intro a
    simp only [List.foldl_cons]
    exact le_trans (ih (Min.min a t)) (min_le_left a t)

theorem le_foldl_max : ∀ (ts : List Int) (a : Int), a ≤ ts.foldl Max.max a := by
  intro ts
  induction ts with
  | nil => intro a; exact le_refl a
  | cons t ts ih =>
    intro a
    simp only [List.foldl_cons]
    exact le_trans (le_max_left a t) (ih (Max.max a t))

theorem foldl_wadd_fix : ∀ (ts : List Int) (a : Int), i32wrap a = a →
    i32wrap (ts.foldl wadd a) = ts.foldl wadd a := by
  intro ts
  induction ts with
  | nil => intro a h; exact h
  | cons t ts ih =>
    intro a _
    simp only [List.foldl_cons]
    exact ih (wadd a t) (wadd_wrapped a t)

theorem kfilter_cons_pos (k : Nat) (r : DataLine) (rs : List DataLine) (h : r.key = k) :
    kfilter k (r :: rs) = r :: kfilter k rs := by
  simp [kfilter, List.filter_cons, h]

theorem kfilter_cons_neg (k : Nat) (r : DataLine) (rs : List DataLine) (h : ¬r.key = k) :
    kfilter k (r :: rs) = kfilter k rs := by
  simp [kfilter, List.filter_cons, h]

theorem tempsOf_cons_pos (k : Nat) (r : DataLine) (rs : List DataLine) (h : r.key = k) :
    tempsOf k (r :: rs) = r.temperature :: tempsOf k rs := by
  simp [tempsOf, kfilter_cons_pos k r rs h]

theorem tempsOf_cons_neg (k : Nat) (r : DataLine) (rs : List DataLine) (h : ¬r.key = k) :
    tempsOf k (r :: rs) = tempsOf k rs := by
  simp [tempsOf, kfilter_cons_neg k r rs h]

theorem extendD_nil (d : CityData) : extendD d [] = d := by
  simp [extendD]

theorem extendD_add (d : CityData) (t : Int) (ts : List Int) :
    extendD (d.add t) ts = extendD d (t :: ts) := by
  simp only [extendD, CityData.add, List.foldl_cons, List.length_cons, CityData.mk.injEq,
    true_and, and_true]
  omega

/-- After folding a record stream into an existing per-key aggregate, the
aggregate is the old one extended by the stream's `k`-temperatures. -/
theorem foldl_stepK_some (k : Nat) :
    ∀ (rs : List DataLine) (d : CityData),
      rs.foldl (stepK k) (some d) = some (extendD d (tempsOf k rs)) := by
  intro rs
  induction rs with
  | nil => intro d; simp [tempsOf, kfilter, extendD_nil]
  | cons r rs ih =>
    intro d
    simp only [List.foldl_cons, stepK]
    by_cases hk : r.key = k
    · rw [if_pos hk]
      simp only [Option.getD]
      rw [ih (d.add r.temperature), extendD_add, tempsOf_cons_pos k r rs hk]
    · rw [if_neg hk]
      rw [ih d, tempsOf_cons_neg k r rs hk]

/-- Characterization of the per-key aggregate: `none` when no record carries
the key; otherwise the first such record's city with the folded statistics
(seeded, as in the source, from the all-zero default). -/
theorem aggOf_eq (k : Nat) :
    ∀ rs : List DataLine,
      aggOf k rs = (kfilter k rs).head?.map
        (fun r0 => extendD (CityData.new r0.city) (tempsOf k rs)) := by
  intro rs
  induction rs with
  | nil => rfl
  | cons r rs ih =>
    by_cases hk : r.key = k
    · show (r :: rs).foldl (stepK k) none = _
      simp only [List.foldl_cons]
      rw [show stepK k none r = some ((CityData.new r.city).add r.temperature) by
        simp [stepK, hk]]
      rw [foldl_stepK_some, extendD_add, kfilter_cons_pos k r rs hk,
        tempsOf_cons_pos k r rs hk]
      rfl
    · show (r :: rs).foldl (stepK k) none = _
      simp only [List.foldl_cons]
      rw [show stepK k none r = none by simp [stepK, hk]]
      rw [show rs.foldl (stepK k) none = aggOf k rs from rfl]
      rw [ih, kfilter_cons_neg k r rs hk, tempsOf_cons_neg k r rs hk]

theorem aggOf_some_inv (k : Nat) (rs : List DataLine) (d : CityData)
    (h : aggOf k rs = some d) :
    d.min ≤ 0 ∧ 0 ≤ d.max ∧ i32wrap d.acc = d.acc := by
  rw [aggOf_eq] at h
  cases hf : kfilter k rs with
  | nil => rw [hf] at h; exact absurd h (by simp)
  | cons r0 t0 =>
    rw [hf] at h
    simp only [List.head?_cons, Option.map_some'] at h
    cases h
    refine ⟨foldl_min_le _ _, le_foldl_max _ _, foldl_wadd_fix _ _ i32wrap_zero⟩

theorem kfilter_mem (k : Nat) (rs : List DataLine) (r : DataLine)
    (h : r ∈ kfilter k rs) : r ∈ rs ∧ r.key = k := by
  have := List.mem_filter.mp h
  simpa using this

/-- The key step: merging the per-key aggregates of two record streams is the
per-key aggregate of the concatenated stream, provided the two streams agree
on the city name of the key (no-collision hypothesis). -/
theorem mergeOptD_aggOf_append (k : Nat) (rs1 rs2 : List DataLine)
    (hc : ∀ r1 ∈ rs1, ∀ r2 ∈ rs2, r1.key = k → r2.key = k → r1.city = r2.city) :
    mergeOptD (aggOf k rs1) (aggOf k rs2) = aggOf k (rs1 ++ rs2) := by
  have hkf : kfilter k (rs1 ++ rs2) = kfilter k rs1 ++ kfilter k rs2 := by
    simp [kfilter, List.filter_append]
  have hts : tempsOf k (rs1 ++ rs2) = tempsOf k rs1 ++ tempsOf k rs2 := by
    simp [tempsOf, hkf]
  rw [aggOf_eq, aggOf_eq, aggOf_eq, hkf, hts]
  cases hf1 : kfilter k rs1 with
  | nil =>
    have hts1 : tempsOf k rs1 = [] := by simp [tempsOf, hf1]
    cases hf2 : kfilter k rs2 with
    | nil => rfl
    | cons r2 t2 =>
      simp only [hts1, List.nil_append, List.head?_nil, List.head?_cons, Option.map_none',
        Option.map_some', mergeOptD, Option.getD_none]
      congr 1
      simp only [CityData.merge, CityData.default, extendD, CityData.new, CityData.mk.injEq,
        true_and, and_true]
      refine ⟨min_eq_right (foldl_min_le _ _), max_eq_right (le_foldl_max _ _), ?_, by omega⟩
      show wadd 0 _ = _
      unfold wadd
      rw [zero_add]
      exact foldl_wadd_fix _ _ i32wrap_zero
  | cons r1 t1 =>
    cases hf2 : kfilter k rs2 with
    | nil =>
      have hts2 : tempsOf k rs2 = [] := by simp [tempsOf, hf2]
      simp only [hts2, List.append_nil, List.head?_nil, List.head?_cons, Option.map_none',
        Option.map_some', mergeOptD]
    | cons r2 t2 =>
      have hm1 := kfilter_mem k rs1 r1 (by rw [hf1]; exact List.mem_cons_self _ _)
      have hm2 := kfilter_mem k rs2 r2 (by rw [hf2]; exact List.mem_cons_self _ _)
      have hcity : r2.city = r1.city := (hc r1 hm1.1 r2 hm2.1 hm1.2 hm2.2).symm
      simp only [List.cons_append, List.head?_cons, Option.map_some', mergeOptD, Option.getD]
      congr 1
      simp only [CityData.merge, extendD, CityData.new, CityData.mk.injEq]
      refine ⟨hcity, ?_, ?_, ?_, by simp only [CityData.default, List.length_append]; omega⟩
      · rw [List.foldl_append]
        have hA : Min.min ((tempsOf k rs1).foldl Min.min 0) 0
            = (tempsOf k rs1).foldl Min.min 0 :=
          min_eq_left (foldl_min_le _ _)
        calc Min.min ((tempsOf k rs1).foldl Min.min 0) ((tempsOf k rs2).foldl Min.min 0)
            = (tempsOf k rs2).foldl Min.min
                (Min.min ((tempsOf k rs1).foldl Min.min 0) 0) := by
              rw [foldl_min_shift]
          _ = (tempsOf k rs2).foldl Min.min ((tempsOf k rs1).foldl Min.min 0) := by rw [hA]
      · rw [List.foldl_append]
        have hA : Max.max ((tempsOf k rs1).foldl Max.max 0) 0
            = (tempsOf k rs1).foldl Max.max 0 :=
          max_eq_left (le_foldl_max _ _)
        calc Max.max ((tempsOf k rs1).foldl Max.max 0) ((tempsOf k rs2).foldl Max.max 0)
            = (tempsOf k rs2).foldl Max.max
                (Max.max ((tempsOf k rs1).foldl Max.max 0) 0) := by
              rw [foldl_max_shift]
          _ = (tempsOf k rs2).foldl Max.max ((tempsOf k rs1).foldl Max.max 0) := by rw [hA]
      · rw [List.foldl_append]
        have hA : wadd ((tempsOf k rs1).foldl wadd 0) 0 = (tempsOf k rs1).foldl wadd 0 := by
          unfold wadd
          rw [add_zero]
          exact foldl_wadd_fix _ _ i32wrap_zero
        calc wadd ((tempsOf k rs1).foldl wadd 0) ((tempsOf k rs2).foldl wadd 0)
            = (tempsOf k rs2).foldl wadd (wadd ((tempsOf k rs1).foldl wadd 0) 0) := by
              rw [foldl_wadd_shift]
          _ = (tempsOf k rs2).foldl wadd ((tempsOf k rs1).foldl wadd 0) := by rw [hA]

/-- Folding per-stream aggregates with `merge` equals the aggregate of the
concatenated streams (city consistency assumed across all streams). -/
theorem foldl_mergeOptD_flatten (k : Nat) :
    ∀ (rss : List (List DataLine)) (rs0 : List DataLine),
      (∀ r1 ∈ rs0 ++ rss.flatten, ∀ r2 ∈ rs0 ++ rss.flatten,
        r1.key = k → r2.key = k → r1.city = r2.city) →
      (rss.map (aggOf k)).foldl mergeOptD (aggOf k rs0) = aggOf k (rs0 ++ rss.flatten) := by
  intro rss
  induction rss with
  | nil => intro rs0 _; simp
  | cons rs rss ih =>
    intro rs0 hc
    simp only [List.map_cons, List.foldl_cons, List.flatten_cons]
    rw [mergeOptD_aggOf_append k rs0 rs (by
      intro r1 h1 r2 h2 hk1 hk2
      refine hc r1 ?_ r2 ?_ hk1 hk2 <;> simp only [List.flatten_cons, List.mem_append] at * <;>
        tauto)]
    rw [ih (rs0 ++ rs) (by
      intro r1 h1 r2 h2 hk1 hk2
      refine hc r1 ?_ r2 ?_ hk1 hk2 <;> simp only [List.flatten_cons, List.mem_append] at * <;>
        tauto)]
    rw [List.append_assoc]

instance : RightCommutative (Min.min : Int → Int → Int) :=
  ⟨fun b a1 a2 => by rw [min_assoc, min_comm a1 a2, ← min_assoc]⟩

instance : RightCommutative (Max.max : Int → Int → Int) :=
  ⟨fun b a1 a2 => by rw [max_assoc, max_comm a1 a2, ← max_assoc]⟩

theorem wadd_comm (a b : Int) : wadd a b = wadd b a := by
  unfold wadd
  rw [add_comm]

instance : RightCommutative wadd :=
  ⟨fun b a1 a2 => by rw [wadd_assoc, wadd_comm a1 a2, ← wadd_assoc]⟩

/-- The per-key aggregate does not depend on the order of the record stream
(city consistency assumed: the stored name is the first record's name). -/
theorem aggOf_perm (k : Nat) (rs1 rs2 : List DataLine) (hp : rs1.Perm rs2)
    (hc : ∀ r1 ∈ rs1, ∀ r2 ∈ rs1, r1.key = k → r2.key = k → r1.city = r2.city) :
    aggOf k rs1 = aggOf k rs2 := by
  rw [aggOf_eq, aggOf_eq]
  have hpf : (kfilter k rs1).Perm (kfilter k rs2) := hp.filter _
  have hpt : (tempsOf k rs1).Perm (tempsOf k rs2) := hpf.map _
  cases hf1 : kfilter k rs1 with
  | nil =>
    have h2 : kfilter k rs2 = [] := by
      rw [hf1] at hpf
      exact hpf.symm.eq_nil
    rw [h2]
    rfl
  | cons r1 t1 =>
    have h2 : kfilter k rs2 ≠ [] := by
      intro hnil
      rw [hf1, hnil] at hpf
      have := hpf.length_eq
      simp at this
    obtain ⟨r2, t2, hf2⟩ : ∃ r2 t2, kfilter k rs2 = r2 :: t2 := by
      cases hk2 : kfilter k rs2 with
      | nil => exact absurd hk2 h2
      | cons a b => exact ⟨a, b, rfl⟩
    rw [hf2]
    simp only [List.head?_cons, Option.map_some']
    have hm1 := kfilter_mem k rs1 r1 (by rw [hf1]; exact List.mem_cons_self _ _)
    have hm2 := kfilter_mem k rs2 r2 (by rw [hf2]; exact List.mem_cons_self _ _)
    have hcity : r1.city = r2.city :=
      hc r1 hm1.1 r2 (hp.mem_iff.mpr hm2.1) hm1.2 hm2.2
    congr 1
    simp only [extendD, CityData.new, CityData.default, CityData.mk.injEq]
    exact ⟨hcity, hpt.foldl_eq 0, hpt.foldl_eq 0, hpt.foldl_eq 0, by rw [hpt.length_eq]⟩

/-! ### Line-structure lemmas -/

theorem splitNl_ne_nil : ∀ x : List Nat, splitNl x ≠ [] := by
  intro x
  induction x with
  | nil => simp [splitNl]
  | cons b rest ih =>
    simp only [splitNl]
    split_ifs
    · simp
    · cases h : splitNl rest <;> simp

theorem splitNl_append_sep : ∀ (x b : List Nat), splitNl (x ++ 10 :: b) = splitNl x ++ splitNl b := by
  intro x
  induction x with
  | nil => intro b; simp [splitNl]
  | cons c x ih =>
    intro b
    simp only [List.cons_append, splitNl, List.append_eq]
    by_cases hc : c = 10
    · rw [if_pos hc, if_pos hc, ih]
      simp
    · rw [if_neg hc, if_neg hc, ih]
      cases hx : splitNl x with
      | nil => exact absurd hx (splitNl_ne_nil x)
      | cons l ls => simp

theorem splitNl_concat_sep (x : List Nat) : splitNl (x ++ [10]) = splitNl x ++ [[]] := by
  have h := splitNl_append_sep x []
  simpa [splitNl] using h

theorem nonEmptyLines_append (a b : List Nat) (ha : a = [] ∨ a.getLast? = some 10) :
    nonEmptyLines (a ++ b) = nonEmptyLines a ++ nonEmptyLines b := by
  rcases ha with rfl | ha
  · simp [nonEmptyLines, splitNl]
  · have hne : a ≠ [] := by
      intro h
      rw [h] at ha
      simp at ha
    obtain ⟨x, rfl⟩ : ∃ x, a = x ++ [10] := by
      refine ⟨a.dropLast, ?_⟩
      have hlast : a.getLast hne = 10 := by
        rw [List.getLast?_eq_getLast a hne] at ha
        simpa using ha
      conv_lhs => rw [← List.dropLast_concat_getLast hne]
      rw [hlast]
    rw [List.append_assoc]
    show nonEmptyLines (x ++ 10 :: b) = _
    unfold nonEmptyLines
    rw [splitNl_append_sep, splitNl_concat_sep, List.filter_append, List.filter_append]
    simp

theorem nonEmptyLines_flatten : ∀ parts : List (List Nat), Aligned parts →
    nonEmptyLines parts.flatten = (parts.map nonEmptyLines).flatten := by
  intro parts
  induction parts with
  | nil => intro _; simp [nonEmptyLines, splitNl]
  | cons p ps ih =>
    intro halign
    rcases ps with _ | ⟨q, qs⟩
    · simp
    · have hp : p = [] ∨ p.getLast? = some 10 := by
        refine halign p ?_
        rw [List.dropLast_cons₂]
        exact List.mem_cons_self _ _
      have halign2 : Aligned (q :: qs) := by
        intro r hr
        refine halign r ?_
        rw [List.dropLast_cons₂]
        exact List.mem_cons_of_mem _ hr
      have ih2 := ih halign2
      simp only [List.flatten_cons, List.map_cons] at ih2 ⊢
      rw [nonEmptyLines_append p _ hp, ih2]

theorem chunkRecords_flatten (parts : List (List Nat)) (halign : Aligned parts) :
    chunkRecords parts.flatten = (parts.map chunkRecords).flatten := by
  unfold chunkRecords
  rw [nonEmptyLines_flatten parts halign, List.filterMap_flatten]
  rw [List.map_map]
  rfl

/-! ### Absence of panics on long lines -/

theorem tempValue_ne_panic (b : Nat) (bs : List Nat) : TempValue.tryFrom (b :: bs) ≠ .panic := by
  simp only [TempValue.tryFrom]
  split <;> simp

theorem exists_six : ∀ l : List Nat, l.length = 6 → ∃ a b c d e f, l = [a, b, c, d, e, f] := by
  intro l h
  rcases l with _ | ⟨a, l⟩
  · simp at h
  rcases l with _ | ⟨b, l⟩
  · simp at h
  rcases l with _ | ⟨c, l⟩
  · simp at h
  rcases l with _ | ⟨d, l⟩
  · simp at h
  rcases l with _ | ⟨e, l⟩
  · simp at h
  rcases l with _ | ⟨f, l⟩
  · simp at h
  rcases l with _ | ⟨g, l⟩
  · exact ⟨a, b, c, d, e, f, rfl⟩
  · simp [List.length_cons] at h

theorem dataLine_ne_panic (l : List Nat) (h6 : 6 ≤ l.length) :
    DataLine.tryFrom l ≠ .panic := by
  unfold DataLine.tryFrom
  rw [if_neg (by omega)]
  have hlen : (l.drop (l.length - 6)).length = 6 := by
    rw [List.length_drop]
    omega
  obtain ⟨w0, w1, w2, w3, w4, w5, hw⟩ := exists_six _ hlen
  rw [hw]
  simp only
  by_cases h2 : w2 = 59
  · simp only [h2, if_true]
    rcases ht : TempValue.tryFrom [w3, w4, w5] with t | _ | _ <;> simp [ht]
    exact absurd ht (tempValue_ne_panic _ _)
  · simp only [h2, if_false]
    by_cases h1 : w1 = 59
    · simp only [h1, if_true]
      rcases ht : TempValue.tryFrom [w2, w3, w4, w5] with t | _ | _ <;> simp [ht]
      exact absurd ht (tempValue_ne_panic _ _)
    · simp only [h1, if_false]
      by_cases h0 : w0 = 59
      · simp only [h0, if_true]
        rcases ht : TempValue.tryFrom [w5] with t | _ | _ <;> simp [ht]
        exact absurd ht (tempValue_ne_panic _ _)
      · simp [h0]

theorem foldl_skip_eq_filterMap :
    ∀ (ls : List (List Nat)) (m : CitiesMap),
      ls.foldl (fun m line => match DataLine.tryFrom line with
        | .ok dl => m.add dl
        | _ => m) m
        = (ls.filterMap (fun line => match DataLine.tryFrom line with
            | .ok dl => some dl
            | _ => none)).foldl CitiesMap.add m := by
  intro ls
  induction ls with
  | nil => intro m; rfl
  | cons l ls ih =>
    intro m
    simp only [List.foldl_cons, List.filterMap_cons]
    rcases h : DataLine.tryFrom l with dl | _ | _ <;> simp [h, ih]

theorem foldlM_lines_total :
    ∀ (ls : List (List Nat)) (m : CitiesMap),
      (∀ l ∈ ls, DataLine.tryFrom l ≠ .panic) →
      (ls.foldlM (fun m line => match DataLine.tryFrom line with
        | .panic => none
        | .err => some m
        | .ok dl => some (m.add dl)) m)
        = some (ls.foldl (fun m line => match DataLine.tryFrom line with
            | .ok dl => m.add dl
            | _ => m) m) := by
  intro ls
  induction ls with
  | nil => intro m _; rfl
  | cons l ls ih =>
    intro m hnp
    rcases hl : DataLine.tryFrom l with dl | _ | _
    · simp only [List.foldlM_cons, List.foldl_cons, hl]
      exact ih _ (fun x hx => hnp x (List.mem_cons_of_mem _ hx))
    · simp only [List.foldlM_cons, List.foldl_cons, hl]
      exact ih _ (fun x hx => hnp x (List.mem_cons_of_mem _ hx))
    · exact absurd hl (hnp l (List.mem_cons_self _ _))

/-- Whenever no line of the buffer is shorter than 6 bytes, `process_chunk`
completes without panicking and computes `processChunkTotal`. -/
theorem processChunk_eq_total (buf : List Nat) (h : NoShortLines buf) :
    processChunk buf = some (processChunkTotal buf) := by
  unfold processChunk processChunkTotal chunkRecords
  rw [foldlM_lines_total _ _ (fun l hl => dataLine_ne_panic l (h l hl))]
  rw [foldl_skip_eq_filterMap]

/-! ## Claim theorems -/

/-- **C1.** The claim says the first observation of a value initializes
`min = max = sum = value`.  The code instead creates the record from
`Default` (all zeros) and then folds the value in, so after the first
observation of `3.0` (tenths value 30, line `AB;3.0`) the stored minimum is
`0`, not `30`: the claim fails on the code. -/
theorem c1_first_observation_divergence :
    (DataLine.tryFrom (strBytes "AB;3.0")).toOption.map
        (fun dl => (CitiesMap.add ([] : CitiesMap) dl).lookup dl.key)
      = some (some ⟨strBytes "AB", 0, 30, 30, 1⟩) ∧ (0 : Int) ≠ 30 := by
  exact ⟨rfl, by decide⟩

/-- **C2.** On the spec's scenario input `"A;1.0\nB;-2.5\nA;3.0\n"` the
program does not emit the claimed result `{A=1.0/2.0/3.0, B=-2.5 (thrice)}`:
every line is 5 bytes long, `DataLine::try_from` computes
`bytes[bytes_len - 6..]` and panics, so the run aborts with no result at all
(`none`). -/
theorem c2_scenario_divergence :
    processChunk (strBytes "A;1.0\nB;-2.5\nA;3.0\n") = none := by
  rfl

/-- **C3.** The claim says parsing any non-empty line returns a record or
`LineError::Malformed` and never aborts, naming `"A;x"` explicitly.  The code
panics on every line shorter than 6 bytes (`bytes[bytes_len - 6..]`), and the
panic aborts the whole chunk, losing the valid `AB;1.0` record as well. -/
theorem c3_short_line_panic :
    DataLine.tryFrom (strBytes "A;x") = .panic ∧
      processChunk (strBytes "A;x\nAB;1.0\n") = none := by
  exact ⟨rfl, rfl⟩

/-- **C4.** The claim says the chunks together cover every byte of the file,
including a final line without trailing terminator.  For the file
`"AB;1.0\nCD;2.0"` the read loop hands only `"AB;1.0"` to `process_chunk`:
at end of file the loop breaks while `"\nCD;2.0"` is still in `remaining`,
so the final record is silently dropped. -/
theorem c4_trailing_line_dropped :
    readChunks (strBytes "AB;1.0\nCD;2.0") 4194304 = [strBytes "AB;1.0"] ∧
      (readChunks (strBytes "AB;1.0\nCD;2.0") 4194304).flatten
        ≠ strBytes "AB;1.0\nCD;2.0" := by
  exact ⟨by decide, by decide⟩

/-- **C5 (counterexample).** The claim says any input outside the digit
grammar yields a parse error.  But `"0.a"` is outside the grammar and still
parses "successfully" (to the garbage value 49): the digit positions are
never validated. -/
theorem c5_counterexample :
    TempValue.tryFrom (strBytes "0.a") = .ok 49 ∧ grammarB (strBytes "0.a") = false := by
  exact ⟨rfl, by decide⟩

/-- **C5 (amended).** `TempValue::try_from` succeeds exactly on inputs of the
shape: optional leading `-`, then either 3 bytes with `.` in the middle or 4
bytes with `.` in the third position — the digit positions are NOT validated
(their bytes are arbitrary) — and on the empty input it panics (out-of-bounds
`value[0]`) instead of returning a parse error; every other shape yields the
parse error. -/
theorem c5_parse_shape (bs : List Nat) :
    (TempValue.tryFrom bs = .panic ↔ bs = []) ∧
      ((∃ v, TempValue.tryFrom bs = .ok v) ↔ AcceptShape bs) := by
  rcases bs with _ | ⟨v0, t⟩
  · exact ⟨by simp [TempValue.tryFrom], by simp [TempValue.tryFrom, AcceptShape]⟩
  rcases t with _ | ⟨a, _ | ⟨b, _ | ⟨c, _ | ⟨d, _ | ⟨e, r⟩⟩⟩⟩⟩ <;>
    by_cases hv : v0 = 45 <;>
    simp [TempValue.tryFrom, AcceptShape, tailShape, hv] <;>
    split_ifs <;>
    simp_all

/-- **C6 (counterexample).** `"-0.0"` matches the claimed grammar, parses to
the scaled integer 0, and is formatted back as `"0.0"` — the round-trip
`format(parse(s)) = s` fails at `s = "-0.0"`. -/
theorem c6_counterexample :
    TempValue.tryFrom (strBytes "-0.0") = .ok 0 ∧
      grammarB (strBytes "-0.0") = true ∧
      displayTenths 0 = strBytes "0.0" ∧
      strBytes "0.0" ≠ strBytes "-0.0" := by
  refine ⟨rfl, by decide, by decide, by decide⟩

/-- **C6 (amended).** Round trip: for every valid value string matching the
grammar that is in canonical form — no leading zero in a two-digit integer
part, and not the negative spelling of zero `-0.0` — formatting the parsed
value yields the string back: `format(parse(s)) = s`. -/
theorem c6_roundtrip_canonical (bs : List Nat) (h : canonicalValueB bs = true) :
    ∃ v, TempValue.tryFrom bs = .ok v ∧ displayTenths v = bs := by
  rcases bs with _ | ⟨x, _ | ⟨a, _ | ⟨p, _ | ⟨c, _ | ⟨q, _ | ⟨z, r⟩⟩⟩⟩⟩⟩ <;>
    simp only [canonicalValueB] at h <;> try exact Bool.noConfusion h
  · -- [x, a, p] : one integer digit, no sign
    simp [isDigitB] at h
    obtain ⟨⟨⟨hx1, hx2⟩, ha⟩, hp1, hp2⟩ := h
    subst ha
    have hx45 : ¬x = 45 := by omega
    refine ⟨10 * toDigit x + toDigit p, by simp [TempValue.tryFrom, hx45], ?_⟩
    rw [toDigit_digit x hx1 hx2, toDigit_digit p hp1 hp2]
    have hv0 : ¬(10 * ((x : Int) - 48) + ((p : Int) - 48)) < 0 := by omega
    have hna : (10 * ((x : Int) - 48) + ((p : Int) - 48)).natAbs
        = 10 * (x - 48) + (p - 48) := by omega
    simp only [displayTenths, if_neg hv0, hna]
    rw [natBytes_one _ (by omega)]
    have e1 : 48 + (10 * (x - 48) + (p - 48)) / 10 = x := by omega
    have e2 : 48 + (10 * (x - 48) + (p - 48)) % 10 = p := by omega
    rw [e1, e2]
    rfl
  · -- [x, a, p, c]
    by_cases hx : x = 45
    · -- sign plus one integer digit
      simp [hx, isDigitB] at h
      obtain ⟨⟨⟨⟨ha1, ha2⟩, hp⟩, hc1, hc2⟩, hzero⟩ := h
      subst hx
      subst hp
      refine ⟨-(10 * toDigit a + toDigit c), by simp [TempValue.tryFrom], ?_⟩
      rw [toDigit_digit a ha1 ha2, toDigit_digit c hc1 hc2]
      have hv0 : (-(10 * ((a : Int) - 48) + ((c : Int) - 48))) < 0 := by
        rcases hzero with h48 | h48 <;> omega
      have hna : (-(10 * ((a : Int) - 48) + ((c : Int) - 48))).natAbs
          = 10 * (a - 48) + (c - 48) := by omega
      simp only [displayTenths, if_pos hv0, hna]
      rw [natBytes_one _ (by omega)]
      have e1 : 48 + (10 * (a - 48) + (c - 48)) / 10 = a := by omega
      have e2 : 48 + (10 * (a - 48) + (c - 48)) % 10 = c := by omega
      rw [e1, e2]
      rfl
    · -- two integer digits, no sign
      simp [hx, isDigitB] at h
      obtain ⟨⟨⟨⟨⟨hx1, hx2⟩, hx48⟩, ha1, ha2⟩, hp⟩, hc1, hc2⟩ := h
      subst hp
      have hx45 : ¬x = 45 := hx
      refine ⟨100 * toDigit x + 10 * toDigit a + toDigit c,
        by simp [TempValue.tryFrom, hx45], ?_⟩
      rw [toDigit_digit x hx1 hx2, toDigit_digit a ha1 ha2, toDigit_digit c hc1 hc2]
      have hv0 : ¬(100 * ((x : Int) - 48) + 10 * ((a : Int) - 48) + ((c : Int) - 48)) < 0 := by
        omega
      have hna : (100 * ((x : Int) - 48) + 10 * ((a : Int) - 48) + ((c : Int) - 48)).natAbs
          = 100 * (x - 48) + 10 * (a - 48) + (c - 48) := by omega
      simp only [displayTenths, if_neg hv0, hna]
      rw [natBytes_two _ (by omega) (by omega)]
      have e1 : 48 + (100 * (x - 48) + 10 * (a - 48) + (c - 48)) / 10 / 10 = x := by omega
      have e2 : 48 + (100 * (x - 48) + 10 * (a - 48) + (c - 48)) / 10 % 10 = a := by omega
      have e3 : 48 + (100 * (x - 48) + 10 * (a - 48) + (c - 48)) % 10 = c := by omega
      rw [e1, e2, e3]
      rfl
  · -- [x, a, p, c, q] : sign plus two integer digits
    simp [isDigitB] at h
    obtain ⟨⟨⟨⟨⟨hx, ha1, ha2⟩, ha48⟩, hp1, hp2⟩, hc⟩, hq1, hq2⟩ := h
    subst hx
    subst hc
    refine ⟨-(100 * toDigit a + 10 * toDigit p + toDigit q),
      by simp [TempValue.tryFrom], ?_⟩
    rw [toDigit_digit a ha1 ha2, toDigit_digit p hp1 hp2, toDigit_digit q hq1 hq2]
    have hv0 : (-(100 * ((a : Int) - 48) + 10 * ((p : Int) - 48) + ((q : Int) - 48))) < 0 := by
      omega
    have hna : (-(100 * ((a : Int) - 48) + 10 * ((p : Int) - 48) + ((q : Int) - 48))).natAbs
        = 100 * (a - 48) + 10 * (p - 48) + (q - 48) := by omega
    simp only [displayTenths, if_pos hv0, hna]
    rw [natBytes_two _ (by omega) (by omega)]
    have e1 : 48 + (100 * (a - 48) + 10 * (p - 48) + (q - 48)) / 10 / 10 = a := by omega
    have e2 : 48 + (100 * (a - 48) + 10 * (p - 48) + (q - 48)) / 10 % 10 = p := by omega
    have e3 : 48 + (100 * (a - 48) + 10 * (p - 48) + (q - 48)) % 10 = q := by omega
    rw [e1, e2, e3]
    rfl

/-- Witness for C6: the canonical string `12.3` round-trips. -/
theorem c6_roundtrip_canonical_witness :
    canonicalValueB (strBytes "12.3") = true ∧
      ∃ v, TempValue.tryFrom (strBytes "12.3") = .ok v ∧ displayTenths v = strBytes "12.3" :=
  ⟨by decide, c6_roundtrip_canonical (strBytes "12.3") (by decide)⟩

/-- **C7.** For every file and every line-aligned partition of its bytes into
chunks, folding the per-chunk tables with `CitiesMap::merge` — in any fold
order (any permutation `qarts` of the chunk list) — produces the same final
aggregate for every fingerprint (same name, min, max, sum and count) as
processing the whole file as a single chunk.  The hypotheses reflect the
claim's implicit premises: the run completes (no line is shorter than 6
bytes, which would panic — see C3), and no fingerprint collision between
distinct city names occurs in the file (the accepted risk of §9 of the
spec, without which "per group" is ill-defined).  The last two conjuncts tie
the total function used in the equation to the real (panicking)
`process_chunk`. -/
theorem c7_merge_chunks_eq_whole (file : List Nat) (parts qarts : List (List Nat))
    (hjoin : parts.flatten = file) (halign : Aligned parts) (hperm : qarts.Perm parts)
    (hshort : NoShortLines file) (hcoll : KeyDeterminesCity file) :
    MapEquiv ((qarts.map processChunkTotal).foldl CitiesMap.merge [])
        (processChunkTotal file) ∧
      processChunk file = some (processChunkTotal file) ∧
      (∀ q ∈ qarts, processChunk q = some (processChunkTotal q)) := by
  subst hjoin
  have hrecs : chunkRecords parts.flatten = (parts.map chunkRecords).flatten :=
    chunkRecords_flatten parts halign
  have hrecsq : ((qarts.map chunkRecords).flatten).Perm (chunkRecords parts.flatten) := by
    rw [hrecs]
    exact (hperm.map chunkRecords).flatten
  have hmem : ∀ r ∈ (qarts.map chunkRecords).flatten, r ∈ chunkRecords parts.flatten :=
    fun r hr => hrecsq.mem_iff.mp hr
  have hcc : ∀ k, ∀ r1 ∈ (qarts.map chunkRecords).flatten,
      ∀ r2 ∈ (qarts.map chunkRecords).flatten,
      r1.key = k → r2.key = k → r1.city = r2.city := by
    intro k r1 h1 r2 h2 hk1 hk2
    exact hcoll r1 (hmem r1 h1) r2 (hmem r2 h2) (by rw [hk1, hk2])
  refine ⟨?_, processChunk_eq_total _ hshort, ?_⟩
  · intro k
    calc ((qarts.map processChunkTotal).foldl CitiesMap.merge []).lookup k
        = (qarts.map processChunkTotal).foldl
            (fun o mm => mergeOptD o (mm.lookup k)) (CitiesMap.lookup [] k) := by
          refine lookup_foldl_merge (qarts.map processChunkTotal) [] k ?_
          intro mm hmm'
          obtain ⟨q, hq, rfl⟩ := List.mem_map.mp hmm'
          exact keysNodup_processChunkTotal q
      _ = ((qarts.map chunkRecords).map (aggOf k)).foldl mergeOptD (aggOf k []) := by
          simp only [List.foldl_map, List.map_map, lookup_processChunkTotal]
          rfl
      _ = aggOf k ([] ++ (qarts.map chunkRecords).flatten) :=
          foldl_mergeOptD_flatten k (qarts.map chunkRecords) [] (by simpa using hcc k)
      _ = aggOf k ((qarts.map chunkRecords).flatten) := by rw [List.nil_append]
      _ = aggOf k (chunkRecords parts.flatten) := aggOf_perm k _ _ hrecsq (hcc k)
      _ = (processChunkTotal parts.flatten).lookup k :=
          (lookup_processChunkTotal _ k).symm
  · intro q hq
    refine processChunk_eq_total q ?_
    intro l hl
    refine hshort l ?_
    rw [nonEmptyLines_flatten parts halign]
    exact List.mem_flatten.mpr
      ⟨nonEmptyLines q, List.mem_map_of_mem _ (hperm.mem_iff.mp hq), hl⟩

/-- Witness for C7: the file `AB;1.0\nCD;2.0\nAB;3.0\n`, split after the
first line, merged in reversed chunk order, agrees with single-chunk
processing. -/
theorem c7_merge_chunks_eq_whole_witness :
    ([strBytes "AB;1.0\n", strBytes "CD;2.0\nAB;3.0\n"] : List (List Nat)).flatten
        = strBytes "AB;1.0\nCD;2.0\nAB;3.0\n" ∧
      Aligned [strBytes "AB;1.0\n", strBytes "CD;2.0\nAB;3.0\n"] ∧
      ([strBytes "CD;2.0\nAB;3.0\n", strBytes "AB;1.0\n"] : List (List Nat)).Perm
        [strBytes "AB;1.0\n", strBytes "CD;2.0\nAB;3.0\n"] ∧
      NoShortLines (strBytes "AB;1.0\nCD;2.0\nAB;3.0\n") ∧
      KeyDeterminesCity (strBytes "AB;1.0\nCD;2.0\nAB;3.0\n") ∧
      (MapEquiv
          ((([strBytes "CD;2.0\nAB;3.0\n", strBytes "AB;1.0\n"] : List (List Nat)).map
              processChunkTotal).foldl CitiesMap.merge [])
          (processChunkTotal (strBytes "AB;1.0\nCD;2.0\nAB;3.0\n")) ∧
        processChunk (strBytes "AB;1.0\nCD;2.0\nAB;3.0\n")
          = some (processChunkTotal (strBytes "AB;1.0\nCD;2.0\nAB;3.0\n")) ∧
        (∀ q ∈ ([strBytes "CD;2.0\nAB;3.0\n", strBytes "AB;1.0\n"] : List (List Nat)),
          processChunk q = some (processChunkTotal q))) :=
  ⟨by decide, by unfold Aligned; decide, List.Perm.swap _ _ _,
    by unfold NoShortLines; decide, by unfold KeyDeterminesCity; decide,
    c7_merge_chunks_eq_whole (strBytes "AB;1.0\nCD;2.0\nAB;3.0\n")
      [strBytes "AB;1.0\n", strBytes "CD;2.0\nAB;3.0\n"]
      [strBytes "CD;2.0\nAB;3.0\n", strBytes "AB;1.0\n"]
      (by decide) (by unfold Aligned; decide) (List.Perm.swap _ _ _)
      (by unfold NoShortLines; decide) (by unfold KeyDeterminesCity; decide)⟩

/-- **C8 (counterexample).** For a file with zero valid lines the emitted
line is `"{\u{8}\u{8}}"` — `{`, two BACKSPACE characters and `}` — not the
claimed `"{}"`. -/
theorem c8_counterexample :
    emitted [] = [123, 8, 8, 125] ∧ emitted [] ≠ strBytes "{}" := by
  exact ⟨by decide, by decide⟩

/-- **C8 (amended).** The emitted result is one line of the byte-for-byte
form `{name1=min1/mean1/max1, name2=..., }` followed by two BACKSPACE bytes
(8) and `}`: names sorted ascending by byte value, entries separated by
`", "`, each numeric field with exactly one fractional digit — but with a
trailing separator after the last entry that the program tries to erase with
the two BACKSPACE characters (a terminal-rendering trick, not a byte-level
removal), and for zero valid lines the emitted bytes are `{`, BS, BS, `}`
rather than `{}`.  Each numeric field is produced by the exact binary32
model of the source's `f32` pipeline (`tempDisplay`, `avgDisplay`); the
`MachineRange` hypothesis restricts to aggregates whose fields carry
machine-representable program values (`i32` statistics, non-zero `usize`
count), the range on which that model is exact. -/
theorem c8_output_format (rs : List CityData) (hm : ∀ d ∈ rs, MachineRange d) :
    emitted rs
        = [123] ++ sepJoin [44, 32] ((sortCities rs).map CityData.entryBytes)
            ++ (if rs.isEmpty then [] else [44, 32]) ++ [8, 8, 125] ∧
      List.Pairwise cityLe (sortCities rs) ∧
      (sortCities rs).Perm rs ∧
      ∀ d ∈ rs, OneFracDigit (tempDisplay d.min)
        ∧ OneFracDigit (avgDisplay d)
        ∧ OneFracDigit (tempDisplay d.max) := by
  have hperm : (sortCities rs).Perm rs := List.perm_insertionSort cityLe rs
  refine ⟨?_, List.sorted_insertionSort cityLe rs, hperm, ?_⟩
  · show print_results (sortCities rs) = _
    unfold print_results
    have hm : (sortCities rs).map (fun d => d.entryBytes ++ [44, 32])
        = ((sortCities rs).map CityData.entryBytes).map (fun x => x ++ [44, 32]) := by
      rw [List.map_map]
      rfl
    rw [hm, flatten_map_append]
    have he : ((sortCities rs).map CityData.entryBytes).isEmpty = rs.isEmpty := by
      rcases rs with _ | ⟨d, t⟩
      · rfl
      · have : (sortCities (d :: t)).length = (d :: t).length := hperm.length_eq
        rcases hs : sortCities (d :: t) with _ | _
        · rw [hs] at this
          simp at this
        · rfl
    rw [he]
    simp [List.append_assoc]
  · intro d _
    exact ⟨oneFrac_f32TenthsBytes _ _, oneFrac_f32TenthsBytes _ _,
      oneFrac_f32TenthsBytes _ _⟩

/-- Witness for C8: two records with machine-representable fields print
sorted (`A` before `B`) in the amended format. -/
theorem c8_output_format_witness :
    (∀ d ∈ [CityData.mk (strBytes "B") (-25) (-25) (-25) 1,
        CityData.mk (strBytes "A") 10 30 40 2], MachineRange d) ∧
      (emitted [CityData.mk (strBytes "B") (-25) (-25) (-25) 1,
            CityData.mk (strBytes "A") 10 30 40 2]
          = [123] ++ sepJoin [44, 32]
              ((sortCities [CityData.mk (strBytes "B") (-25) (-25) (-25) 1,
                  CityData.mk (strBytes "A") 10 30 40 2]).map CityData.entryBytes)
            ++ (if ([CityData.mk (strBytes "B") (-25) (-25) (-25) 1,
                  CityData.mk (strBytes "A") 10 30 40 2] : List CityData).isEmpty
                then [] else [44, 32]) ++ [8, 8, 125] ∧
        List.Pairwise cityLe (sortCities [CityData.mk (strBytes "B") (-25) (-25) (-25) 1,
          CityData.mk (strBytes "A") 10 30 40 2]) ∧
        (sortCities [CityData.mk (strBytes "B") (-25) (-25) (-25) 1,
          CityData.mk (strBytes "A") 10 30 40 2]).Perm
          [CityData.mk (strBytes "B") (-25) (-25) (-25) 1,
            CityData.mk (strBytes "A") 10 30 40 2] ∧
        ∀ d ∈ [CityData.mk (strBytes "B") (-25) (-25) (-25) 1,
            CityData.mk (strBytes "A") 10 30 40 2],
          OneFracDigit (tempDisplay d.min)
            ∧ OneFracDigit (avgDisplay d)
            ∧ OneFracDigit (tempDisplay d.max)) :=
  ⟨by unfold MachineRange; decide, c8_output_format _ (by unfold MachineRange; decide)⟩

/-- **C9 (counterexample).** The accumulated sum is NOT the exact integer sum
for every number of observations: `acc` is an `i32`, and 2,149,634
observations of `99.9` (tenths value 999, each a value the parser produces)
wrap it.  The exact sum is 2,147,484,366 but the stored `acc` is
-2,147,482,930. -/
theorem c9_counterexample :
    ((List.replicate 2149634 (999 : Int)).foldl CityData.add
        (CityData.new (strBytes "A"))).acc
      ≠ (List.replicate 2149634 (999 : Int)).sum := by
  rw [acc_eq_wrapped_sum]
  have hs : (List.replicate 2149634 (999 : Int)).sum = 2147484366 := by
    rw [List.sum_replicate]
    norm_num
  rw [hs]
  decide

/-- **C9 (amended).** For every group and every sequence of observed values,
the accumulated `acc` equals the exact mathematical integer sum reduced into
the `i32` range by two's-complement wrap-around; in particular it equals the
exact sum whenever that sum fits in an `i32`. -/
theorem c9_acc_wrapped_sum (vs : List Int) (city : List Nat) :
    (vs.foldl CityData.add (CityData.new city)).acc = i32wrap vs.sum ∧
      (i32wrap vs.sum = vs.sum →
        (vs.foldl CityData.add (CityData.new city)).acc = vs.sum) := by
  refine ⟨acc_eq_wrapped_sum vs city, fun h => ?_⟩
  rw [acc_eq_wrapped_sum, h]

/-- Witness for C9: observing `0.5` then `-0.3` accumulates exactly `2`. -/
theorem c9_acc_wrapped_sum_witness :
    (([5, -3] : List Int).foldl CityData.add (CityData.new (strBytes "A"))).acc
        = i32wrap ([5, -3] : List Int).sum ∧
      (i32wrap ([5, -3] : List Int).sum = ([5, -3] : List Int).sum →
        (([5, -3] : List Int).foldl CityData.add (CityData.new (strBytes "A"))).acc
          = ([5, -3] : List Int).sum) :=
  c9_acc_wrapped_sum [5, -3] (strBytes "A")

/-- **C10.** Every successfully parsed line carries as its key exactly the
FNV-1a fingerprint of the claim: offset basis 14695981039346656037, then for
each byte xor-then-multiply by 1099511628211 modulo `2^64`, applied to the
city-name bytes followed by the name length as one extra pseudo-byte
(the length taken mod 256, i.e. `idx as u8`).  Determinism and order
sensitivity are inherent: `fnvSpec` is a function of the exact byte
sequence. -/
theorem c10_fnv_key (bs : List Nat) (dl : DataLine)
    (h : DataLine.tryFrom bs = .ok dl) :
    dl.key = fnvSpec (dl.city ++ [dl.city.length % 256]) := by
  unfold DataLine.tryFrom at h
  by_cases hn : bs.length < 6
  · simp [hn] at h
  · simp only [hn, if_false] at h
    rcases hw : bs.drop (bs.length - 6) with _ | ⟨w0, _ | ⟨w1, _ | ⟨w2, _ | ⟨w3, _ | ⟨w4, _ | ⟨w5, rest⟩⟩⟩⟩⟩⟩ <;>
      rw [hw] at h <;> try exact PResult.noConfusion h
    rcases hrest : rest with _ | _
    · subst hrest
      simp only at h
      have hn' : 6 ≤ bs.length := Nat.le_of_not_lt hn
      by_cases h2 : w2 = 59
      · simp only [h2, if_true] at h
        rcases ht : TempValue.tryFrom [w3, w4, w5] with t | _ | _ <;> rw [ht] at h
        · cases h
          exact key_spec bs (bs.length - 4) (by omega)
        · exact PResult.noConfusion h
        · exact PResult.noConfusion h
      · simp only [h2, if_false] at h
        by_cases h1 : w1 = 59
        · simp only [h1, if_true] at h
          rcases ht : TempValue.tryFrom [w2, w3, w4, w5] with t | _ | _ <;> rw [ht] at h
          · cases h
            exact key_spec bs (bs.length - 5) (by omega)
          · exact PResult.noConfusion h
          · exact PResult.noConfusion h
        · simp only [h1, if_false] at h
          by_cases h0 : w0 = 59
          · simp only [h0, if_true] at h
            rcases ht : TempValue.tryFrom [w5] with t | _ | _ <;> rw [ht] at h
            · cases h
              exact key_spec bs (bs.length - 6) (by omega)
            · exact PResult.noConfusion h
            · exact PResult.noConfusion h
          · simp [h0] at h
    · subst hrest
      exact PResult.noConfusion h

/-- Witness for C10: the line `AB;1.0` parses with key equal to the FNV-1a
fingerprint of `AB` plus the length byte 2. -/
theorem c10_fnv_key_witness :
    DataLine.tryFrom (strBytes "AB;1.0")
        = .ok ⟨18027804964825584760, strBytes "AB", 10⟩ ∧
      (18027804964825584760 : Nat)
        = fnvSpec (strBytes "AB" ++ [(strBytes "AB").length % 256]) := by
  constructor
  · rfl
  · exact c10_fnv_key (strBytes "AB;1.0") ⟨18027804964825584760, strBytes "AB", 10⟩ rfl

end OBR
